import Mathlib

/-!
Verification of the hierarchical graph model of the neural-constellations
editor (GraphCanvas component).  The definitions below are a shallow
embedding of the TypeScript source: the node/edge records, the
expand/collapse visibility computation (shouldShowNode / visibleNodes /
visibleEdges), the cycle guard (isDescendant), the structural mutations
(onConnect, updateNodeParent, toggleExpand, toggleExpandAll, label /
color / size updates) and the JSON serializer (exportToJSON and
the matching importFromJSON).

Modelling conventions, chosen to mirror the JavaScript semantics:

* Optional / possibly-`undefined` fields are `Option`; JavaScript
  truthiness of a string field treats both `undefined` and `""` as
  falsy, which is spelled out at each use site.
* The recursive ancestor walks in the source (`shouldShowNode`,
  `isDescendant`) have no termination guard, so they are embedded as
  fuel-indexed functions returning `Option`; `none` models divergence.
  A deterministic walk that terminates never revisits an id, hence
  terminates within (number of nodes + 1) steps, so exhausting fuel
  (nodes.length + 2) is equivalent to divergence of the source.
* `onConnect` / `updateNodeParent` mutate the old parent's `children`
  array in place while `Array.prototype.map` is running; entries for
  which the callback returns `node` unchanged alias the mutated object.
  This is simulated exactly with an explicit object store and alias
  markers (`reparentStep` / `mapSimAux` / `runReparentMap`).
* Node positions are modelled as integers and the rendering-only
  decorations (onToggleExpand callback, selected flag, node type,
  reactflow's measured width/height) are omitted: they are outside the
  invariant-bearing state.
* `addEdge` is reactflow library code (not part of this repository):
  it is modelled as an append guarded by a duplicate source/target
  check; no claim below depends on its details.
-/

namespace NeuralConstellations

/-- A node record: `id`/`label`/`color`/position from the node object,
`parentId`/`children`/`isExpanded` from `node.data`, `width`/`height`
from `node.style`.  `Option` marks fields the source leaves
`undefined` in places. -/
structure GNode where
  id : String
  label : String
  color : Option String
  x : Int
  y : Int
  parentId : Option String
  children : Option (List String)
  isExpanded : Option Bool
  width : Option Int
  height : Option Int
  deriving DecidableEq, Repr

instance : Inhabited GNode :=
  ⟨{ id := "", label := "", color := none, x := 0, y := 0, parentId := none,
     children := none, isExpanded := none, width := none, height := none }⟩

/-- An edge record (`id`, `source`, `target`, `animated`); the
display-only `type: 'floating'` field is omitted. -/
structure GEdge where
  id : String
  source : String
  target : String
  animated : Option Bool
  deriving DecidableEq, Repr

instance : Inhabited GEdge :=
  ⟨{ id := "", source := "", target := "", animated := none }⟩

/-- The GraphCanvas state: the `nodes` and `edges` collections plus the
separate `allExpanded` flag used by `toggleExpandAll`. -/
structure Graph where
  nodes : List GNode
  edges : List GEdge
  allExpanded : Bool
  deriving DecidableEq, Repr

/-- `nodes.find(n => n.id === i)`. -/
def lookupNode (nds : List GNode) (i : String) : Option GNode :=
  nds.find? (fun n => n.id = i)

/-- One step up the parentId chain, by id: look the id up and follow a
truthy `parentId` (`undefined` and `""` are falsy). -/
def pstep (nds : List GNode) (i : String) : Option String :=
  match lookupNode nds i with
  | none => none
  | some n =>
    match n.parentId with
    | none => none
    | some p => if p = "" then none else some p

/-- The ids visited walking the parentId chain upward from `i`,
truncated at `fuel` steps. -/
def ancChainF : Nat → List GNode → String → List String
  | 0, _, _ => []
  | fuel + 1, nds, i =>
    match pstep nds i with
    | none => []
    | some p => p :: ancChainF fuel nds p

/-- The full ancestor id chain of `i`; fuel `nodes.length + 2` is enough
for every terminating walk (a terminating deterministic walk never
revisits an id). -/
def ancestorIds (nds : List GNode) (i : String) : List String :=
  ancChainF (nds.length + 2) nds i

/-- The parentId relation contains no cycle: no node occurs in its own
ancestor chain.  This is the invariant §3 of the specification states
for the data model. -/
def Acyclic (nds : List GNode) : Prop :=
  ∀ n ∈ nds, n.id ∉ ancestorIds nds n.id

instance (nds : List GNode) : Decidable (Acyclic nds) := by
  unfold Acyclic; infer_instance

/-- `isDescendant(nodeId, ancestorId)` from `onConnect` /
`updateNodeParent`: walks `parentId` upward from `nodeId` and reports
whether `ancestorId` is encountered.  The source recursion has no
termination guard; `none` models running out of fuel (divergence). -/
def isDescendantF : Nat → List GNode → String → String → Option Bool
  | 0, _, _, _ => none
  | fuel + 1, nds, nodeId, ancestorId =>
    match lookupNode nds nodeId with
    | none => some false
    | some n =>
      match n.parentId with
      | none => some false
      | some p =>
        if p = "" then some false
        else if p = ancestorId then some true
        else isDescendantF fuel nds p ancestorId

/-- `shouldShowNode` from `visibleNodes`: a node is shown unless some
ancestor reached through `parentId` lookups is not expanded.  The
source checks `!node.data.parentId` (falsy: absent or `""`), treats a
missing parent as a root, and tests `!parent.data.isExpanded` (falsy:
absent or `false`).  `none` models divergence of the unguarded
recursion. -/
def shouldShowF : Nat → List GNode → GNode → Option Bool
  | 0, _, _ => none
  | fuel + 1, nds, n =>
    match n.parentId with
    | none => some true
    | some p =>
      if p = "" then some true
      else
        match lookupNode nds p with
        | none => some true
        | some parent =>
          if parent.isExpanded ≠ some true then some false
          else shouldShowF fuel nds parent

/-- `visibleNodes`: the nodes passing `shouldShowNode`; `none` when any
walk diverges (the render pass would overflow the stack).  The
per-node display decoration (onToggleExpand, selected) is omitted. -/
def visibleNodes? (nds : List GNode) : Option (List GNode) :=
  if nds.all (fun n => (shouldShowF (nds.length + 2) nds n).isSome)
  then some (nds.filter (fun n => (shouldShowF (nds.length + 2) nds n).getD false))
  else none

/-- `visibleEdges`: edges whose source and target ids are both among
the visible nodes. -/
def visibleEdges? (nds : List GNode) (es : List GEdge) : Option (List GEdge) :=
  (visibleNodes? nds).map (fun vs =>
    es.filter (fun e =>
      vs.any (fun n => n.id == e.source) && vs.any (fun n => n.id == e.target)))

/-- Outcome of a structural mutation: success, or the self-loop /
would-cycle rejection reported to the user via a toast. -/
inductive MutOutcome where
  | ok
  | selfLoop
  | wouldCycle
  deriving DecidableEq, Repr

/-- Replace the element at index `j`, if it exists. -/
def listModify (l : List GNode) (j : Nat) (f : GNode → GNode) : List GNode :=
  match l.get? j with
  | none => l
  | some v => l.set j (f v)

/-- One callback invocation of the `nds.map(...)` inside `onConnect` /
`updateNodeParent`, at position `i` of the array.  `cur` is the current
state of the original array's objects; the callback may mutate the old
parent's `children` in place (`oldParent.data.children = ...filter...`),
which is modelled by updating `cur`.  The returned output entry is
`Sum.inl i` when the callback returns `node` unchanged (the output
aliases the — possibly later mutated — object at position `i`), and
`Sum.inr v` when it builds a fresh record.  `childId` is the node whose
parent is being set (`params.target` resp. `nodeId`), `parentCmp` the
id compared against for the add-to-children branch (`params.source`
resp. `parentId`), `newPid` the stored new parent reference
(`params.source` resp. `parentId || undefined`).
The in-place removal of the reparented child from its old parent's
`children` (`oldParent.data.children = (…||[]).filter(id => id !== …)`)
is split into `mutateOldParent`; a falsy old parent reference or a
failed `nds.find` leaves the store untouched. -/
def mutateOldParent (childId : String) (pid : Option String)
    (cur : List GNode) : List GNode :=
  match pid with
  | none => cur
  | some op =>
    if op = "" then cur
    else
      match cur.findIdx? (fun m => m.id = op) with
      | none => cur
      | some j =>
        listModify cur j (fun m =>
          { m with children := some ((m.children.getD []).filter (fun c => c ≠ childId)) })

def reparentStep (childId parentCmp : String) (newPid : Option String)
    (cur : List GNode) (i : Nat) : List GNode × (Nat ⊕ GNode) :=
  match cur.get? i with
  | none => (cur, Sum.inl i)
  | some node =>
    if node.id = childId then
      (mutateOldParent childId node.parentId cur,
        Sum.inr { ((mutateOldParent childId node.parentId cur).get? i).getD node with
                  parentId := newPid })
    else if node.id = parentCmp then
      let cs := node.children.getD []
      if childId ∈ cs then (cur, Sum.inl i)
      else (cur, Sum.inr { node with
          children := some (cs ++ [childId]),
          isExpanded := some (node.isExpanded.getD true) })
    else (cur, Sum.inl i)

/-- Run `k` callback invocations starting at position `i`, threading
the mutable object store; returns the final store and the list of
output entries. -/
def mapSimAux (step : List GNode → Nat → List GNode × (Nat ⊕ GNode)) :
    Nat → Nat → List GNode → List GNode × List (Nat ⊕ GNode)
  | 0, _, cur => (cur, [])
  | k + 1, i, cur =>
    let r := step cur i
    let rest := mapSimAux step k (i + 1) r.1
    (rest.1, r.2 :: rest.2)

/-- The full `nds.map(...)` of `onConnect` / `updateNodeParent`:
simulate the pass, then resolve alias entries against the final state
of the mutated objects. -/
def runReparentMap (childId parentCmp : String) (newPid : Option String)
    (nds : List GNode) : List GNode :=
  let r := mapSimAux (reparentStep childId parentCmp newPid) nds.length 0 nds
  r.2.map (fun o =>
    match o with
    | Sum.inl j => (r.1.get? j).getD default
    | Sum.inr v => v)

/-- reactflow's `addEdge` (library code, not part of this repository):
appends a new animated edge unless an edge with the same source and
target already exists.  No claim depends on its details. -/
def addEdgeRF (s t : String) (es : List GEdge) : List GEdge :=
  if es.any (fun e => e.source == s && e.target == t) then es
  else es ++ [{ id := "reactflow__edge-" ++ s ++ "-" ++ t,
                source := s, target := t, animated := some true }]

/-- `onConnect(params)`: rejects a self connection, then (when both
endpoints are truthy) rejects when the source is already a descendant
of the target, else adds the edge and reparents the target under the
source.  The `isDescendant` walk has no termination guard, so the
whole operation is `none` when that walk diverges. -/
def connect (g : Graph) (s t : String) : Option (MutOutcome × Graph) :=
  if s = t then some (MutOutcome.selfLoop, g)
  else if s ≠ "" ∧ t ≠ "" then
    match isDescendantF (g.nodes.length + 2) g.nodes s t with
    | none => none
    | some true => some (MutOutcome.wouldCycle, g)
    | some false =>
      some (MutOutcome.ok,
        { g with edges := addEdgeRF s t g.edges,
                 nodes := runReparentMap t s (some s) g.nodes })
  else
    some (MutOutcome.ok, { g with edges := addEdgeRF s t g.edges })

/-- `updateNodeParent(nodeId, parentId)`: rejects a self parent, then
(for a truthy parent) rejects when the chosen parent is already a
descendant of the node, else reparents; an empty `parentId` clears the
parent (`parentId || undefined`). -/
def setParent (g : Graph) (nodeId p : String) : Option (MutOutcome × Graph) :=
  if nodeId = p then some (MutOutcome.selfLoop, g)
  else if p ≠ "" then
    match isDescendantF (g.nodes.length + 2) g.nodes p nodeId with
    | none => none
    | some true => some (MutOutcome.wouldCycle, g)
    | some false =>
      some (MutOutcome.ok,
        { g with nodes := runReparentMap nodeId p (some p) g.nodes })
  else
    some (MutOutcome.ok, { g with nodes := runReparentMap nodeId p none g.nodes })

/-- `toggleExpand(nodeId)`: flips `isExpanded` (JavaScript `!` sends
`undefined` and `false` to `true`). -/
def toggleExpand (g : Graph) (nodeId : String) : Graph :=
  { g with nodes := g.nodes.map (fun n =>
      if n.id = nodeId then { n with isExpanded := some (n.isExpanded ≠ some true) }
      else n) }

/-- `toggleExpandAll()`: sets `isExpanded` of every node with a
non-empty `children` to the negation of the separate `allExpanded`
flag. -/
def toggleExpandAll (g : Graph) : Graph :=
  let newState := !g.allExpanded
  { g with
    allExpanded := newState,
    nodes := g.nodes.map (fun n =>
      if (n.children.getD []).length > 0
      then { n with isExpanded := some newState }
      else n) }

/-- `updateNodeLabel(nodeId, newLabel)`. -/
def updateNodeLabel (g : Graph) (nodeId newLabel : String) : Graph :=
  { g with nodes := g.nodes.map (fun n =>
      if n.id = nodeId then { n with label := newLabel } else n) }

/-- `updateNodeColor(nodeId, newColor)`. -/
def updateNodeColor (g : Graph) (nodeId newColor : String) : Graph :=
  { g with nodes := g.nodes.map (fun n =>
      if n.id = nodeId then { n with color := some newColor } else n) }

/-- `updateNodeSize(nodeId, width, height)`. -/
def updateNodeSize (g : Graph) (nodeId : String) (w h : Int) : Graph :=
  { g with nodes := g.nodes.map (fun n =>
      if n.id = nodeId then { n with width := some w, height := some h } else n) }

/-- A structural hierarchy mutation: `onConnect` or `updateNodeParent`. -/
inductive HOp where
  | connectOp (s t : String)
  | setParentOp (n p : String)
  deriving DecidableEq, Repr

/-- Apply one hierarchy mutation. -/
def applyHOp (g : Graph) (o : HOp) : Option (MutOutcome × Graph) :=
  match o with
  | HOp.connectOp s t => connect g s t
  | HOp.setParentOp n p => setParent g n p

/-- Apply a sequence of hierarchy mutations; `none` as soon as one
diverges. -/
def runOps (g : Graph) : List HOp → Option Graph
  | [] => some g
  | o :: rest =>
    match applyHOp g o with
    | none => none
    | some r => runOps r.2 rest

/-! ## Serializer -/

/-- A JSON value, the interchange representation produced by
`JSON.stringify` and consumed by `JSON.parse`. -/
inductive JVal where
  | null : JVal
  | jbool : Bool → JVal
  | jnum : Int → JVal
  | jstr : String → JVal
  | jarr : List JVal → JVal
  | jobj : List (String × JVal) → JVal

/-- JavaScript property access `j.k` on a parsed JSON value: a key
lookup on an object, `undefined` (here `none`) otherwise. -/
def jField (j : JVal) (k : String) : Option JVal :=
  match j with
  | JVal.jobj fs => (fs.find? (fun kv => kv.1 = k)).map (fun kv => kv.2)
  | _ => none

/-- `Array.prototype.map` is only available on arrays; anything else
throws (and the import is aborted by the catch). -/
def asArr : Option JVal → Option (List JVal)
  | some (JVal.jarr xs) => some xs
  | _ => none

/-- JavaScript `x || d` on an optional number: `undefined` and `0` are
falsy. -/
def jsOrI (x : Option Int) (d : Int) : Int :=
  match x with
  | none => d
  | some v => if v = 0 then d else v

/-- One node record of `exportToJSON`: fields in source order, with
`undefined` optional fields (`color`, `parentId`) omitted by
`JSON.stringify`, `children` coerced by `|| []`, `isExpanded` by
`?? true` and width/height by `|| 150` / `|| 80` (reactflow's measured
`node.width`/`node.height` fallback is render state, absent here). -/
def exportNode (n : GNode) : JVal :=
  JVal.jobj
    ([("id", JVal.jstr n.id), ("label", JVal.jstr n.label),
      ("position", JVal.jobj [("x", JVal.jnum n.x), ("y", JVal.jnum n.y)])]
     ++ (match n.color with
         | none => []
         | some c => [("color", JVal.jstr c)])
     ++ (match n.parentId with
         | none => []
         | some p => [("parentId", JVal.jstr p)])
     ++ [("children", JVal.jarr ((n.children.getD []).map JVal.jstr)),
         ("isExpanded", JVal.jbool (n.isExpanded.getD true)),
         ("width", JVal.jnum (jsOrI n.width 150)),
         ("height", JVal.jnum (jsOrI n.height 80))])

/-- One edge record of `exportToJSON`; an `undefined` `animated` is
omitted by `JSON.stringify`. -/
def exportEdge (e : GEdge) : JVal :=
  JVal.jobj
    ([("id", JVal.jstr e.id), ("source", JVal.jstr e.source),
      ("target", JVal.jstr e.target)]
     ++ (match e.animated with
         | none => []
         | some b => [("animated", JVal.jbool b)]))

/-- The document `exportToJSON` serializes. -/
def exportJSON (g : Graph) : JVal :=
  JVal.jobj [("nodes", JVal.jarr (g.nodes.map exportNode)),
             ("edges", JVal.jarr (g.edges.map exportEdge))]

/-- Extract a string field, `none` otherwise (a missing or non-string
value; non-string junk is not exercised by exported documents). -/
def jStr? : Option JVal → Option String
  | some (JVal.jstr s) => some s
  | _ => none

/-- Extract a number field with default 0 (exported documents always
carry numeric positions). -/
def jNumD (x : Option JVal) (d : Int) : Int :=
  match x with
  | some (JVal.jnum v) => v
  | _ => d

/-- One node of `importFromJSON`'s `graphData.nodes.map(...)`:
`parentId`/`color` are taken verbatim (absent stays absent),
`children` is coerced by `|| []`, `isExpanded` by `?? true`, and
`width`/`height` by `|| 150` / `|| 80` into `style`. -/
def importNode (j : JVal) : GNode :=
  { id := (jStr? (jField j "id")).getD "",
    label := (jStr? (jField j "label")).getD "",
    color := jStr? (jField j "color"),
    x := jNumD ((jField j "position").bind (fun p => jField p "x")) 0,
    y := jNumD ((jField j "position").bind (fun p => jField p "y")) 0,
    parentId := jStr? (jField j "parentId"),
    children := some (match jField j "children" with
      | some (JVal.jarr xs) => xs.filterMap (fun x => jStr? (some x))
      | _ => []),
    isExpanded := some (match jField j "isExpanded" with
      | some (JVal.jbool b) => b
      | _ => true),
    width := some (jsOrI (some (jNumD (jField j "width") 0)) 150),
    height := some (jsOrI (some (jNumD (jField j "height") 0)) 80) }

/-- One edge of `importFromJSON`'s `graphData.edges.map(...)`. -/
def importEdge (j : JVal) : GEdge :=
  { id := (jStr? (jField j "id")).getD "",
    source := (jStr? (jField j "source")).getD "",
    target := (jStr? (jField j "target")).getD "",
    animated := some (match jField j "animated" with
      | some (JVal.jbool b) => b
      | _ => true) }

/-- The parsing part of `importFromJSON`.  `none` input models a
`JSON.parse` failure (the file is not valid structured data); a
document whose `nodes` or `edges` is missing or not an array makes
`.map` throw.  Both are caught before `setNodes`/`setEdges` run, so
they surface as a single error. -/
def importFromJSON (input : Option JVal) : Except Unit (List GNode × List GEdge) :=
  match input with
  | none => Except.error ()
  | some j =>
    match asArr (jField j "nodes"), asArr (jField j "edges") with
    | some ns, some es => Except.ok (ns.map importNode, es.map importEdge)
    | _, _ => Except.error ()

/-- The store-level effect of an import: on success the node and edge
collections are fully replaced; on failure a single error is reported
(`true` in the second component) and the graph is untouched. -/
def applyImport (g : Graph) (input : Option JVal) : Graph × Bool :=
  match importFromJSON input with
  | Except.error _ => (g, true)
  | Except.ok r => ({ g with nodes := r.1, edges := r.2 }, false)

/-- A malformed interchange document in the sense of the
specification: not valid structured data, or missing the required
`nodes`/`edges` keys. -/
def MalformedInput (input : Option JVal) : Prop :=
  input = none ∨
    ∃ j, input = some j ∧ (jField j "nodes" = none ∨ jField j "edges" = none)

/-! ## Observation functions and invariants -/

/-- The observable attributes of a node named by the round-trip
property: id, label, position, color, parentId, isExpanded, size. -/
structure NodeObs where
  id : String
  label : String
  x : Int
  y : Int
  color : Option String
  parentId : Option String
  isExpanded : Option Bool
  width : Option Int
  height : Option Int
  deriving DecidableEq, Repr

/-- Observe a node. -/
def nodeObs (n : GNode) : NodeObs :=
  { id := n.id, label := n.label, x := n.x, y := n.y, color := n.color,
    parentId := n.parentId, isExpanded := n.isExpanded,
    width := n.width, height := n.height }

/-- The observable attributes of an edge: its source/target pair. -/
def edgeObs (e : GEdge) : String × String :=
  (e.source, e.target)

/-- Import of a just-exported document. -/
def roundTrip (g : Graph) : Except Unit (List GNode × List GEdge) :=
  importFromJSON (some (exportJSON g))

/-- The children/parentId inverse invariant: `Y` appears in
`X.children` iff `Y.parentId == X.id`. -/
def MirrorHolds (nds : List GNode) : Prop :=
  ∀ X ∈ nds, ∀ Y ∈ nds, (Y.id ∈ X.children.getD [] ↔ Y.parentId = some X.id)

instance (nds : List GNode) : Decidable (MirrorHolds nds) := by
  unfold MirrorHolds; infer_instance

/-- The `shouldShowNode` walk exceeds every recursion bound. -/
def ShouldShowDiverges (nds : List GNode) (n : GNode) : Prop :=
  ∀ fuel, shouldShowF fuel nds n = none

/-- The `isDescendant` walk exceeds every recursion bound. -/
def IsDescendantDiverges (nds : List GNode) (a b : String) : Prop :=
  ∀ fuel, isDescendantF fuel nds a b = none

/-- The step relation of the parentId chain on ids. -/
def prel (nds : List GNode) (a b : String) : Prop :=
  pstep nds a = some b

/-- The ancestor node records reached from `n` by walking `parentId`
upward: the ids on the chain that resolve to an existing node. -/
def ancNodes (nds : List GNode) (n : GNode) : List GNode :=
  (ancestorIds nds n.id).filterMap (lookupNode nds)

/-- Every ancestor of `i` reached within `fuel` steps that resolves to
a node is expanded. -/
def ancOkF (fuel : Nat) (nds : List GNode) (i : String) : Bool :=
  (ancChainF fuel nds i).all (fun j =>
    match lookupNode nds j with
    | none => true
    | some a => decide (a.isExpanded = some true))

/-- `cur` agrees with `nds` position by position on `id` and
`parentId` (the in-place mutations of the map callbacks only ever
touch `children`). -/
def SkelPres (nds cur : List GNode) : Prop :=
  List.Forall₂ (fun a b => b.id = a.id ∧ b.parentId = a.parentId) nds cur

/-- The output of the reparenting map agrees with the input position
by position on `id`, and on `parentId` except that every node whose id
is `childId` now points at `newPid`. -/
def ReparentSkel (childId : String) (newPid : Option String)
    (nds out : List GNode) : Prop :=
  List.Forall₂ (fun a b =>
    b.id = a.id ∧ b.parentId = (if a.id = childId then newPid else a.parentId)) nds out

/-- What one output entry of the reparenting map pass satisfies: an
alias entry points at its own position and only arises for nodes other
than the reparented child; a fresh entry keeps the id and carries the
new parent exactly when the id is the child's. -/
def OutEntryOk (childId : String) (newPid : Option String)
    (nds : List GNode) (pos : Nat) : (Nat ⊕ GNode) → Prop
  | Sum.inl j => j = pos ∧ ∃ a, nds.get? pos = some a ∧ a.id ≠ childId
  | Sum.inr v => ∃ a, nds.get? pos = some a ∧ v.id = a.id ∧
      v.parentId = (if a.id = childId then newPid else a.parentId)

/-! ## Concrete states and documents used in the theorems -/

/-- A fully-populated node as the application creates them. -/
def mkNode (i lbl : String) (pid : Option String) (cs : List String)
    (exp : Bool) : GNode :=
  { id := i, label := lbl, color := none, x := 0, y := 0, parentId := pid,
    children := some cs, isExpanded := some exp,
    width := some 150, height := some 80 }

/-- Three root nodes, as in the initial state. -/
def gInit : Graph :=
  { nodes := [mkNode "1" "MAR" none [] true, mkNode "2" "AER" none [] true,
              mkNode "3" "TERRA" none [] true],
    edges := [], allExpanded := true }

/-- The state after `connect("1","2")` from `gInit`: node 2 is a child
of node 1 and the inverse `children` index is consistent. -/
def gPair : Graph :=
  { nodes := [mkNode "1" "MAR" none ["2"] true,
              mkNode "2" "AER" (some "1") [] true,
              mkNode "3" "TERRA" none [] true],
    edges := [{ id := "e1-2", source := "1", target := "2", animated := some true }],
    allExpanded := true }

/-- A consistent state with a collapsed root `r`, its child `c`, and a
node `d` whose `parentId` points at no existing node. -/
def gVis : Graph :=
  { nodes := [mkNode "r" "R" none ["c"] false,
              mkNode "c" "C" (some "r") [] true,
              mkNode "d" "D" (some "zz") [] true],
    edges := [{ id := "e1", source := "r", target := "c", animated := some true },
              { id := "e2", source := "d", target := "r", animated := some true },
              { id := "e3", source := "x", target := "r", animated := some true }],
    allExpanded := true }

/-- A state with a node whose width/height are `0` (enterable through
the size editor, whose HTML `min` does not constrain typed input) and
whose `isExpanded` is `undefined`. -/
def gZeroSize : Graph :=
  { nodes := [{ id := "z", label := "Z", color := some "#fff", x := 3, y := 4,
                parentId := none, children := some [], isExpanded := none,
                width := some 0, height := some 0 }],
    edges := [], allExpanded := true }

/-- A node record of an interchange document with every field present. -/
def docNode (i lbl : String) (pid : Option String) : JVal :=
  JVal.jobj
    ([("id", JVal.jstr i), ("label", JVal.jstr lbl),
      ("position", JVal.jobj [("x", JVal.jnum 0), ("y", JVal.jnum 0)])]
     ++ (match pid with
         | none => []
         | some p => [("parentId", JVal.jstr p)])
     ++ [("children", JVal.jarr []), ("isExpanded", JVal.jbool true),
         ("width", JVal.jnum 150), ("height", JVal.jnum 80)])

/-- A node record of an interchange document without a `children`
field. -/
def docNodeNC (i lbl : String) (pid : Option String) : JVal :=
  JVal.jobj
    ([("id", JVal.jstr i), ("label", JVal.jstr lbl),
      ("position", JVal.jobj [("x", JVal.jnum 0), ("y", JVal.jnum 0)])]
     ++ (match pid with
         | none => []
         | some p => [("parentId", JVal.jstr p)])
     ++ [("isExpanded", JVal.jbool true),
         ("width", JVal.jnum 150), ("height", JVal.jnum 80)])

/-- A crafted document whose two nodes point at each other through
`parentId`. -/
def cycDoc : JVal :=
  JVal.jobj [("nodes", JVal.jarr [docNode "a" "A" (some "b"),
                                  docNode "b" "B" (some "a")]),
             ("edges", JVal.jarr [])]

/-- First node of the imported cycle: its parent is `b`. -/
def cycA : GNode := mkNode "a" "A" (some "b") [] true

/-- Second node of the imported cycle: its parent is `a`. -/
def cycB : GNode := mkNode "b" "B" (some "a") [] true

/-- The node collection `cycDoc` imports to: a two-node `parentId`
cycle. -/
def cycNodes : List GNode := [cycA, cycB]

/-- A document whose hierarchy (`b` under `a`) is expressed only
through `parentId`; the `children` arrays are missing. -/
def ncDoc : JVal :=
  JVal.jobj [("nodes", JVal.jarr [docNodeNC "a" "A" none,
                                  docNodeNC "b" "B" (some "a")]),
             ("edges", JVal.jarr [])]

/-! ## Ancestor-chain lemmas

The walks in the source are deterministic: once they revisit an id
they loop forever, so a terminating walk visits pairwise-distinct ids
and fuel `nodes.length + 2` is enough for every terminating walk. -/

theorem ancChainF_cons {nds : List GNode} {i p : String}
    (hp : pstep nds i = some p) (fuel : Nat) :
    ancChainF (fuel + 1) nds i = p :: ancChainF fuel nds p := by
  simp [ancChainF, hp]

theorem ancChainF_nil {nds : List GNode} {i : String}
    (hp : pstep nds i = none) (fuel : Nat) :
    ancChainF fuel nds i = [] := by
  cases fuel with
  | zero => rfl
  | succ f => simp [ancChainF, hp]

theorem ancChainF_length_le (fuel : Nat) (nds : List GNode) (i : String) :
    (ancChainF fuel nds i).length ≤ fuel := by
  induction fuel generalizing i with
  | zero => simp [ancChainF]
  | succ f ih =>
    cases hp : pstep nds i with
    | none => rw [ancChainF_nil hp]; simp
    | some p => rw [ancChainF_cons hp f]; simpa using ih p

theorem ancChainF_stable_succ (fuel : Nat) (nds : List GNode) (i : String)
    (h : (ancChainF fuel nds i).length < fuel) :
    ancChainF (fuel + 1) nds i = ancChainF fuel nds i := by
  induction fuel generalizing i with
  | zero => simp at h
  | succ f ih =>
    cases hp : pstep nds i with
    | none => rw [ancChainF_nil hp, ancChainF_nil hp]
    | some p =>
      have h2 : (ancChainF f nds p).length < f := by
        rw [ancChainF_cons hp f] at h; simp at h; omega
      rw [ancChainF_cons hp (f + 1), ancChainF_cons hp f, ih p h2]

theorem ancChainF_stable {m m' : Nat} (hmm : m ≤ m') (nds : List GNode)
    (i : String) (h : (ancChainF m nds i).length < m) :
    ancChainF m' nds i = ancChainF m nds i := by
  induction m', hmm using Nat.le_induction with
  | base => rfl
  | succ k hk ih =>
    have hlt : (ancChainF k nds i).length < k := by
      rw [ih]; omega
    rw [ancChainF_stable_succ k nds i hlt, ih]

theorem ancChainF_mem_mono {m m' : Nat} (hmm : m ≤ m') (nds : List GNode)
    {i b : String} (hb : b ∈ ancChainF m nds i) : b ∈ ancChainF m' nds i := by
  induction m generalizing i m' with
  | zero => simp [ancChainF] at hb
  | succ f ih =>
    obtain ⟨k, rfl⟩ : ∃ k, m' = k + 1 := ⟨m' - 1, by omega⟩
    cases hp : pstep nds i with
    | none => simp [ancChainF, hp] at hb
    | some p =>
      simp only [ancChainF, hp, List.mem_cons] at hb ⊢
      rcases hb with rfl | hb
      · exact Or.inl rfl
      · exact Or.inr (ih (by omega) hb)

theorem ancChainF_ne_nil_pstep {fuel : Nat} {nds : List GNode} {i : String}
    (h : ancChainF fuel nds i ≠ []) : ∃ p, pstep nds i = some p := by
  cases fuel with
  | zero => simp [ancChainF] at h
  | succ f =>
    cases hp : pstep nds i with
    | none => simp [ancChainF, hp] at h
    | some p => exact ⟨p, rfl⟩

theorem pstep_some_mem_ids {nds : List GNode} {i p : String}
    (h : pstep nds i = some p) : i ∈ nds.map (fun n => n.id) := by
  unfold pstep at h
  cases hl : lookupNode nds i with
  | none => rw [hl] at h; exact absurd h (by simp)
  | some n =>
    have hid : n.id = i := by
      have := List.find?_some hl
      simpa using this
    have hmem : n ∈ nds := List.mem_of_find?_eq_some hl
    exact hid ▸ List.mem_map_of_mem (fun m => m.id) hmem

theorem ancChainF_dropLast_subset (fuel : Nat) (nds : List GNode) (i : String) :
    ∀ x ∈ (ancChainF fuel nds i).dropLast, x ∈ nds.map (fun n => n.id) := by
  induction fuel generalizing i with
  | zero => simp [ancChainF]
  | succ f ih =>
    cases hp : pstep nds i with
    | none => simp [ancChainF, hp]
    | some p =>
      intro x hx
      rw [show ancChainF (f + 1) nds i = p :: ancChainF f nds p by
            simp [ancChainF, hp]] at hx
      cases hr : ancChainF f nds p with
      | nil => rw [hr] at hx; simp at hx
      | cons q qs =>
        rw [hr, List.dropLast_cons₂, List.mem_cons] at hx
        rcases hx with rfl | hx
        · have hne : ancChainF f nds x ≠ [] := by rw [hr]; simp
          obtain ⟨u, hu⟩ := ancChainF_ne_nil_pstep hne
          exact pstep_some_mem_ids hu
        · exact ih p x (by rw [hr]; exact hx)

theorem ancChainF_full_nodup_or_cycle (nds : List GNode) :
    ∀ fuel, fuel ≤ nds.length + 2 → ∀ i,
      (ancChainF fuel nds i).length = fuel →
      (ancChainF fuel nds i).Nodup ∨
        ∃ y, y ∈ nds.map (fun n => n.id) ∧ y ∈ ancestorIds nds y := by
  intro fuel
  induction fuel with
  | zero => intro _ i _; exact Or.inl (by simp [ancChainF])
  | succ f ih =>
    intro hle i hfull
    cases hp : pstep nds i with
    | none =>
      rw [show ancChainF (f + 1) nds i = [] by simp [ancChainF, hp]] at hfull
      simp at hfull
    | some p =>
      have hchain : ancChainF (f + 1) nds i = p :: ancChainF f nds p := by
        simp [ancChainF, hp]
      have hrest : (ancChainF f nds p).length = f := by
        rw [hchain] at hfull; simpa using hfull
      rcases ih (by omega) p hrest with hnd | hcyc
      · by_cases hpm : p ∈ ancChainF f nds p
        · refine Or.inr ⟨p, ?_, ancChainF_mem_mono (by omega) nds hpm⟩
          have hne : ancChainF f nds p ≠ [] := by
            intro hnil; rw [hnil] at hpm; simp at hpm
          obtain ⟨u, hu⟩ := ancChainF_ne_nil_pstep hne
          exact pstep_some_mem_ids hu
        · exact Or.inl (by rw [hchain]; exact List.Nodup.cons hpm hnd)
      · exact Or.inr hcyc

theorem acyclic_chain_terminates {nds : List GNode} (h : Acyclic nds)
    (i : String) : (ancChainF (nds.length + 2) nds i).length < nds.length + 2 := by
  by_contra hfull
  have hlen : (ancChainF (nds.length + 2) nds i).length = nds.length + 2 := by
    have := ancChainF_length_le (nds.length + 2) nds i
    omega
  rcases ancChainF_full_nodup_or_cycle nds (nds.length + 2) (le_refl _) i hlen
    with hnd | ⟨y, hy, hyc⟩
  · have hsub : (ancChainF (nds.length + 2) nds i).dropLast ⊆
        nds.map (fun n => n.id) := fun x hx =>
      ancChainF_dropLast_subset (nds.length + 2) nds i x hx
    have hnd' : (ancChainF (nds.length + 2) nds i).dropLast.Nodup :=
      List.Nodup.sublist (List.dropLast_sublist _) hnd
    have hsp := List.Subperm.length_le (List.subperm_of_subset hnd' hsub)
    rw [List.length_dropLast, hlen, List.length_map] at hsp
    omega
  · obtain ⟨n, hn, hnid⟩ := List.mem_map.mp hy
    exact h n hn (hnid ▸ hyc)

theorem ancestorIds_cons {nds : List GNode} {i p : String}
    (hp : pstep nds i = some p) :
    ancestorIds nds i = p :: ancChainF (nds.length + 1) nds p :=
  ancChainF_cons hp (nds.length + 1)

theorem ancChainF_shrink {nds : List GNode} :
    ∀ {fuel : Nat} {i : String},
      (ancChainF (fuel + 1) nds i).length ≤ fuel →
      ancChainF (fuel + 1) nds i = ancChainF fuel nds i := by
  intro fuel
  induction fuel with
  | zero =>
    intro i h
    cases hp : pstep nds i with
    | none => rw [ancChainF_nil hp, ancChainF_nil hp]
    | some p => rw [ancChainF_cons hp 0] at h; simp [ancChainF] at h
  | succ f ih =>
    intro i h
    cases hp : pstep nds i with
    | none => rw [ancChainF_nil hp, ancChainF_nil hp]
    | some p =>
      rw [ancChainF_cons hp (f + 1)] at h ⊢
      rw [ancChainF_cons hp f]
      have : (ancChainF (f + 1) nds p).length ≤ f := by
        simp at h; omega
      rw [ih this]

theorem transGen_mem_ancestorIds {nds : List GNode}
    (hterm : ∀ j, (ancChainF (nds.length + 2) nds j).length < nds.length + 2)
    {a b : String} (h : Relation.TransGen (prel nds) a b) :
    b ∈ ancestorIds nds a := by
  induction h using Relation.TransGen.head_induction_on with
  | base hab =>
    rw [ancestorIds_cons hab]
    exact List.mem_cons_self _ _
  | ih hxc hcb ihc =>
    rename_i x c
    rw [ancestorIds_cons hxc]
    have hsh : ancChainF (nds.length + 1 + 1) nds c = ancChainF (nds.length + 1) nds c :=
      ancChainF_shrink (by
        have h2 := hterm c
        have h3 : ancChainF (nds.length + 1 + 1) nds c
            = ancChainF (nds.length + 2) nds c := rfl
        rw [h3]; omega)
    have : b ∈ ancChainF (nds.length + 1) nds c := by
      rw [← hsh]; exact ihc
    exact List.mem_cons_of_mem _ this

theorem mem_ancChainF_transGen {nds : List GNode} :
    ∀ {fuel : Nat} {i b : String}, b ∈ ancChainF fuel nds i →
      Relation.TransGen (prel nds) i b := by
  intro fuel
  induction fuel with
  | zero => intro i b h; simp [ancChainF] at h
  | succ f ih =>
    intro i b h
    cases hp : pstep nds i with
    | none => rw [ancChainF_nil hp] at h; simp at h
    | some p =>
      rw [ancChainF_cons hp f, List.mem_cons] at h
      rcases h with rfl | h
      · exact Relation.TransGen.single hp
      · exact Relation.TransGen.head hp (ih h)

theorem acyclic_not_transGen {nds : List GNode} (h : Acyclic nds)
    (x : String) : ¬ Relation.TransGen (prel nds) x x := by
  intro hx
  obtain ⟨c, hc, _⟩ := Relation.TransGen.head'_iff.mp hx
  have hmem := transGen_mem_ancestorIds (fun j => acyclic_chain_terminates h j) hx
  obtain ⟨n, hn, hnid⟩ := List.mem_map.mp (pstep_some_mem_ids hc)
  exact h n hn (hnid ▸ hmem)

theorem acyclic_of_not_transGen {nds : List GNode}
    (h : ∀ x, ¬ Relation.TransGen (prel nds) x x) : Acyclic nds := by
  intro n _ hmem
  exact h n.id (mem_ancChainF_transGen hmem)

theorem isDescendantF_eq_mem {nds : List GNode} :
    ∀ {fuel : Nat} {a b : String}, (ancChainF fuel nds a).length < fuel →
      isDescendantF fuel nds a b = some (decide (b ∈ ancChainF fuel nds a)) := by
  intro fuel
  induction fuel with
  | zero => intro a b h; simp at h
  | succ f ih =>
    intro a b h
    cases hl : lookupNode nds a with
    | none =>
      have hp : pstep nds a = none := by simp [pstep, hl]
      rw [ancChainF_nil hp]
      simp [isDescendantF, hl]
    | some n =>
      cases hpar : n.parentId with
      | none =>
        have hp : pstep nds a = none := by simp [pstep, hl, hpar]
        rw [ancChainF_nil hp]
        simp [isDescendantF, hl, hpar]
      | some p =>
        by_cases hpe : p = ""
        · have hp : pstep nds a = none := by simp [pstep, hl, hpar, hpe]
          rw [ancChainF_nil hp]
          simp [isDescendantF, hl, hpar, hpe]
        · have hp : pstep nds a = some p := by simp [pstep, hl, hpar, hpe]
          rw [ancChainF_cons hp f]
          by_cases hpb : p = b
          · subst hpb
            simp [isDescendantF, hl, hpar, hpe]
          · have hlen : (ancChainF f nds p).length < f := by
              rw [ancChainF_cons hp f] at h; simp at h; omega
            simp [isDescendantF, hl, hpar, hpe, hpb, ih hlen, Ne.symm hpb]

/-! ## Patching one parent pointer preserves acyclicity

Abstract lemmas over step functions on ids: rewriting the outgoing
pointer of a single id `c` to `s₀` cannot create a cycle when `s₀`
does not already reach `c`, and deleting a pointer never creates
one. -/

theorem patched_reflTransGen_to_base {f g : String → Option String} {c : String}
    (hg : ∀ x, g x = f x ∨ x = c) :
    ∀ {a : String}, Relation.ReflTransGen (fun u v => g u = some v) a c →
      a = c ∨ Relation.TransGen (fun u v => f u = some v) a c := by
  intro a h
  induction h using Relation.ReflTransGen.head_induction_on with
  | refl => exact Or.inl rfl
  | head hax hxc ihx =>
    rename_i a x
    rcases hg a with hfa | rfl
    · have hstep : f a = some x := by rw [← hfa]; exact hax
      rcases ihx with rfl | htg
      · exact Or.inr (Relation.TransGen.single hstep)
      · exact Or.inr (Relation.TransGen.head hstep htg)
    · exact Or.inl rfl

theorem reflTransGen_patched_or_hits {f g : String → Option String} {c : String}
    (hg : ∀ x, g x = f x ∨ x = c) :
    ∀ {a b : String}, Relation.ReflTransGen (fun u v => f u = some v) a b →
      Relation.ReflTransGen (fun u v => g u = some v) a b ∨
        Relation.ReflTransGen (fun u v => g u = some v) a c := by
  intro a b h
  induction h using Relation.ReflTransGen.head_induction_on with
  | refl => exact Or.inl Relation.ReflTransGen.refl
  | head hax hxb ihx =>
    rename_i a x
    rcases hg a with hfa | rfl
    · have hstep : g a = some x := by rw [hfa]; exact hax
      rcases ihx with h1 | h2
      · exact Or.inl (Relation.ReflTransGen.head hstep h1)
      · exact Or.inr (Relation.ReflTransGen.head hstep h2)
    · exact Or.inr Relation.ReflTransGen.refl

theorem patched_transGen_decompose {f g : String → Option String} {c z : String}
    (hg : ∀ x, g x = f x ∨ (x = c ∧ g x = some z)) :
    ∀ {u v : String}, Relation.TransGen (fun a b => g a = some b) u v →
      Relation.TransGen (fun a b => f a = some b) u v ∨
        (Relation.ReflTransGen (fun a b => f a = some b) u c ∧
         Relation.ReflTransGen (fun a b => g a = some b) z v) := by
  intro u v h
  induction h using Relation.TransGen.head_induction_on with
  | base huv =>
    rename_i u
    rcases hg u with hfu | ⟨rfl, hcu⟩
    · exact Or.inl (Relation.TransGen.single (by rw [← hfu]; exact huv))
    · have hv : v = z := by
        rw [huv] at hcu
        exact Option.some.inj hcu
      subst hv
      exact Or.inr ⟨Relation.ReflTransGen.refl, Relation.ReflTransGen.refl⟩
  | ih hux htxv ihx =>
    rename_i u x
    rcases hg u with hfu | ⟨rfl, hcu⟩
    · have hstep : f u = some x := by rw [← hfu]; exact hux
      rcases ihx with h1 | ⟨h2, h3⟩
      · exact Or.inl (Relation.TransGen.head hstep h1)
      · exact Or.inr ⟨Relation.ReflTransGen.head hstep h2, h3⟩
    · have hx : x = z := by
        rw [hux] at hcu
        exact Option.some.inj hcu
      subst hx
      exact Or.inr ⟨Relation.ReflTransGen.refl, htxv.to_reflTransGen⟩

theorem patch_acyclic {f g : String → Option String} {c z : String}
    (hg : ∀ x, g x = f x ∨ (x = c ∧ g x = some z))
    (hacy : ∀ x, ¬ Relation.TransGen (fun a b => f a = some b) x x)
    (hne : z ≠ c)
    (hguard : ¬ Relation.TransGen (fun a b => f a = some b) z c) :
    ∀ x, ¬ Relation.TransGen (fun a b => g a = some b) x x := by
  intro x hx
  have hgor : ∀ y, g y = f y ∨ y = c := fun y => (hg y).imp id And.left
  rcases patched_transGen_decompose hg hx with h1 | ⟨h2, h3⟩
  · exact hacy x h1
  · have h4 : Relation.ReflTransGen (fun a b => g a = some b) x c := by
      rcases reflTransGen_patched_or_hits hgor h2 with h | h
      · exact h
      · exact h
    have h5 := Relation.ReflTransGen.trans h3 h4
    rcases patched_reflTransGen_to_base hgor h5 with rfl | h6
    · exact hne rfl
    · exact hguard h6

theorem remove_edge_acyclic {f g : String → Option String}
    (hg : ∀ x, g x = f x ∨ g x = none)
    (hacy : ∀ x, ¬ Relation.TransGen (fun a b => f a = some b) x x) :
    ∀ x, ¬ Relation.TransGen (fun a b => g a = some b) x x := by
  intro x hx
  refine hacy x (Relation.TransGen.mono ?_ hx)
  intro a b hab
  rcases hg a with h | h
  · rw [← h]; exact hab
  · rw [h] at hab; exact absurd hab (by simp)

/-! ## The reparenting map pass

`runReparentMap` simulates the `nds.map(...)` of `onConnect` /
`updateNodeParent` including its in-place mutation of the old parent's
`children`.  Every mutation and every fresh copy leaves `id`
untouched, and `parentId` is rewritten exactly on the nodes whose id
is the reparented child's. -/

theorem skelPres_refl (nds : List GNode) : SkelPres nds nds := by
  unfold SkelPres
  exact List.forall₂_same.mpr (fun x _ => ⟨rfl, rfl⟩)

theorem skelPres_length {nds cur : List GNode} (h : SkelPres nds cur) :
    nds.length = cur.length :=
  List.Forall₂.length_eq h

theorem skelPres_get {nds cur : List GNode} (h : SkelPres nds cur) {i : Nat}
    (h1 : i < nds.length) (h2 : i < cur.length) :
    cur[i].id = nds[i].id ∧ cur[i].parentId = nds[i].parentId := by
  have hg := (List.forall₂_iff_get.mp h).2 i h1 h2
  simpa using hg

theorem skelPres_of_get {nds cur : List GNode} (hlen : nds.length = cur.length)
    (hget : ∀ i (h1 : i < nds.length) (h2 : i < cur.length),
      cur[i].id = nds[i].id ∧ cur[i].parentId = nds[i].parentId) :
    SkelPres nds cur := by
  unfold SkelPres
  refine List.forall₂_iff_get.mpr ⟨hlen, fun i h1 h2 => ?_⟩
  simpa using hget i h1 h2

theorem skelPres_get? {nds cur : List GNode} (h : SkelPres nds cur) {i : Nat}
    {v : GNode} (hv : cur.get? i = some v) :
    ∃ a, nds.get? i = some a ∧ v.id = a.id ∧ v.parentId = a.parentId := by
  obtain ⟨hi2, hvget⟩ := List.get?_eq_some.mp hv
  have hi1 : i < nds.length := by rw [skelPres_length h]; exact hi2
  have hsk := skelPres_get h hi1 hi2
  refine ⟨nds.get ⟨i, hi1⟩, List.get?_eq_get hi1, ?_, ?_⟩
  · rw [← hvget]; simpa using hsk.1
  · rw [← hvget]; simpa using hsk.2

theorem skelPres_listModify {nds cur : List GNode} (h : SkelPres nds cur)
    (j : Nat) (f : GNode → GNode)
    (hf : ∀ m, (f m).id = m.id ∧ (f m).parentId = m.parentId) :
    SkelPres nds (listModify cur j f) := by
  cases hj : cur.get? j with
  | none =>
    have hlm : listModify cur j f = cur := by unfold listModify; rw [hj]
    rw [hlm]; exact h
  | some v =>
    have hlm : listModify cur j f = cur.set j (f v) := by unfold listModify; rw [hj]
    rw [hlm]
    obtain ⟨hjlen, hvget⟩ := List.get?_eq_some.mp hj
    apply skelPres_of_get
    · rw [skelPres_length h]; simp
    · intro i h1 h2
      have h2' : i < cur.length := by simpa using h2
      have hsk := skelPres_get h h1 h2'
      by_cases hij : i = j
      · subst hij
        have hset : (cur.set i (f v))[i] = f v := by
          simp [List.getElem_set]
        rw [hset, (hf v).1, (hf v).2]
        have hcv : cur[i] = v := by
          simpa [List.get_eq_getElem] using hvget
        rw [hcv] at hsk
        exact hsk
      · have hji : ¬ j = i := fun hh => hij hh.symm
        have hset : (cur.set j (f v))[i] = cur[i] := by
          simp [List.getElem_set, hji]
        rw [hset]
        exact hsk

theorem reparentStep_spec (childId parentCmp : String) (newPid : Option String)
    {nds cur : List GNode} (h : SkelPres nds cur) (i : Nat)
    (hi : i < nds.length) :
    SkelPres nds (reparentStep childId parentCmp newPid cur i).1 ∧
      OutEntryOk childId newPid nds i (reparentStep childId parentCmp newPid cur i).2 := by
  have hi2 : i < cur.length := by rw [← skelPres_length h]; exact hi
  obtain ⟨node, hnode⟩ : ∃ v, cur.get? i = some v :=
    ⟨cur.get ⟨i, hi2⟩, (List.get?_eq_get hi2).symm ▸ rfl⟩
  obtain ⟨a, ha, haid, hapid⟩ := skelPres_get? h hnode
  have hmut : SkelPres nds (mutateOldParent childId node.parentId cur) := by
    unfold mutateOldParent
    cases node.parentId with
    | none => exact h
    | some op =>
      by_cases hop : op = ""
      · simp only [hop, if_pos rfl]; exact h
      · simp only [if_neg hop]
        cases cur.findIdx? (fun m => m.id = op) with
        | none => exact h
        | some j => exact skelPres_listModify h j _ (fun m => ⟨rfl, rfl⟩)
  by_cases hc : node.id = childId
  · -- child branch: mutate the old parent, emit a fresh copy
    have hlen' : i < (mutateOldParent childId node.parentId cur).length := by
      rw [← skelPres_length hmut]; exact hi
    obtain ⟨v', hv'⟩ : ∃ v, (mutateOldParent childId node.parentId cur).get? i = some v :=
      ⟨_, (List.get?_eq_get hlen')⟩
    obtain ⟨a2, ha2, ha2id, _⟩ := skelPres_get? hmut hv'
    rw [ha] at ha2
    have ha2a : a = a2 := Option.some.inj ha2
    subst ha2a
    have hstep : reparentStep childId parentCmp newPid cur i =
        (mutateOldParent childId node.parentId cur,
          Sum.inr { v' with parentId := newPid }) := by
      unfold reparentStep
      rw [hnode]
      simp only [if_pos hc]
      rw [hv']
      simp only [Option.getD_some]
    rw [hstep]
    refine ⟨hmut, ?_⟩
    simp only [OutEntryOk]
    refine ⟨a, ha, ?_, ?_⟩
    · simpa using ha2id
    · have hac : a.id = childId := by rw [← haid]; exact hc
      simp [hac]
  · by_cases hpc : node.id = parentCmp
    · by_cases hin : childId ∈ node.children.getD []
      · have hstep : reparentStep childId parentCmp newPid cur i =
            (cur, Sum.inl i) := by
          unfold reparentStep
          rw [hnode]
          simp only [if_neg hc, if_pos hpc, if_pos hin]
        rw [hstep]
        refine ⟨h, ?_⟩
        simp only [OutEntryOk]
        refine ⟨by trivial, a, ha, ?_⟩
        rw [← haid]; exact hc
      · have hstep : reparentStep childId parentCmp newPid cur i =
            (cur, Sum.inr { node with
              children := some (node.children.getD [] ++ [childId]),
              isExpanded := some (node.isExpanded.getD true) }) := by
          unfold reparentStep
          rw [hnode]
          simp only [if_neg hc, if_pos hpc, if_neg hin]
        rw [hstep]
        refine ⟨h, ?_⟩
        simp only [OutEntryOk]
        refine ⟨a, ha, ?_, ?_⟩
        · simpa using haid
        · have hac : ¬ a.id = childId := by rw [← haid]; exact hc
          simp [hac, hapid]
    · have hstep : reparentStep childId parentCmp newPid cur i =
          (cur, Sum.inl i) := by
        unfold reparentStep
        rw [hnode]
        simp only [if_neg hc, if_neg hpc]
      rw [hstep]
      refine ⟨h, ?_⟩
      simp only [OutEntryOk]
      refine ⟨by trivial, a, ha, ?_⟩
      rw [← haid]; exact hc

theorem mapSimAux_spec (childId parentCmp : String) (newPid : Option String)
    (nds : List GNode) :
    ∀ (k i : Nat) (cur : List GNode), SkelPres nds cur → i + k = nds.length →
      SkelPres nds (mapSimAux (reparentStep childId parentCmp newPid) k i cur).1 ∧
      (mapSimAux (reparentStep childId parentCmp newPid) k i cur).2.length = k ∧
      ∀ m o,
        (mapSimAux (reparentStep childId parentCmp newPid) k i cur).2.get? m = some o →
        OutEntryOk childId newPid nds (i + m) o := by
  intro k
  induction k with
  | zero =>
    intro i cur h hik
    refine ⟨h, rfl, ?_⟩
    intro m o hmo
    simp [mapSimAux] at hmo
  | succ kk ih =>
    intro i cur h hik
    have hi : i < nds.length := by omega
    obtain ⟨hstep1, hstep2⟩ := reparentStep_spec childId parentCmp newPid h i hi
    obtain ⟨hfin, hlen, hok⟩ :=
      ih (i + 1) (reparentStep childId parentCmp newPid cur i).1 hstep1 (by omega)
    have haux : mapSimAux (reparentStep childId parentCmp newPid) (kk + 1) i cur =
        ((mapSimAux (reparentStep childId parentCmp newPid) kk (i + 1)
            (reparentStep childId parentCmp newPid cur i).1).1,
         (reparentStep childId parentCmp newPid cur i).2 ::
           (mapSimAux (reparentStep childId parentCmp newPid) kk (i + 1)
             (reparentStep childId parentCmp newPid cur i).1).2) := rfl
    rw [haux]
    refine ⟨hfin, by simpa using hlen, ?_⟩
    intro m o hmo
    cases m with
    | zero =>
      simp only [List.get?] at hmo
      have ho : o = (reparentStep childId parentCmp newPid cur i).2 :=
        (Option.some.inj hmo).symm
      rw [ho]
      simpa using hstep2
    | succ mm =>
      simp only [List.get?] at hmo
      have := hok mm o hmo
      have hpos : i + 1 + mm = i + (mm + 1) := by omega
      rw [hpos] at this
      exact this

theorem runReparentMap_skel (childId parentCmp : String) (newPid : Option String)
    (nds : List GNode) :
    ReparentSkel childId newPid nds (runReparentMap childId parentCmp newPid nds) := by
  obtain ⟨hfin, hlen, hok⟩ := mapSimAux_spec childId parentCmp newPid nds
    nds.length 0 nds (skelPres_refl nds) (by omega)
  unfold runReparentMap ReparentSkel
  refine List.forall₂_iff_get.mpr ⟨by simpa using hlen.symm, ?_⟩
  intro m h1 h2
  have hm : m < (mapSimAux (reparentStep childId parentCmp newPid)
      nds.length 0 nds).2.length := by rw [hlen]; exact h1
  have hres : (((mapSimAux (reparentStep childId parentCmp newPid)
      nds.length 0 nds).2.map (fun o =>
        match o with
        | Sum.inl j => ((mapSimAux (reparentStep childId parentCmp newPid)
            nds.length 0 nds).1.get? j).getD default
        | Sum.inr v => v)).get ⟨m, h2⟩) =
      (match (mapSimAux (reparentStep childId parentCmp newPid)
          nds.length 0 nds).2.get ⟨m, hm⟩ with
       | Sum.inl j => ((mapSimAux (reparentStep childId parentCmp newPid)
           nds.length 0 nds).1.get? j).getD default
       | Sum.inr v => v) := by
    rw [List.get_map]
  rw [hres]
  have hgetsome : (mapSimAux (reparentStep childId parentCmp newPid)
      nds.length 0 nds).2.get? m =
      some ((mapSimAux (reparentStep childId parentCmp newPid)
        nds.length 0 nds).2.get ⟨m, hm⟩) := List.get?_eq_get hm
  have hok' := hok m _ hgetsome
  rw [show (0 : Nat) + m = m by omega] at hok'
  cases hco : (mapSimAux (reparentStep childId parentCmp newPid)
      nds.length 0 nds).2.get ⟨m, hm⟩ with
  | inl j =>
    rw [hco] at hok'
    obtain ⟨hj, a, ha, haid⟩ := hok'
    have hfl : nds.length = (mapSimAux (reparentStep childId parentCmp newPid)
        nds.length 0 nds).1.length := skelPres_length hfin
    have hmf : m < (mapSimAux (reparentStep childId parentCmp newPid)
        nds.length 0 nds).1.length := by omega
    obtain ⟨b, hb⟩ : ∃ b, (mapSimAux (reparentStep childId parentCmp newPid)
        nds.length 0 nds).1.get? m = some b := ⟨_, List.get?_eq_get hmf⟩
    obtain ⟨a2, ha2, hbid, hbpid⟩ := skelPres_get? hfin hb
    rw [ha] at ha2
    have ha2a : a = a2 := Option.some.inj ha2
    subst ha2a
    have hga : nds.get ⟨m, h1⟩ = a := by
      have := List.get?_eq_get h1
      rw [ha] at this
      exact (Option.some.inj this).symm
    simp only [hco]
    rw [hj, hb, hga]
    simp only [Option.getD_some]
    exact ⟨hbid, by rw [if_neg haid]; exact hbpid⟩
  | inr v =>
    rw [hco] at hok'
    obtain ⟨a, ha, hvid, hvpid⟩ := hok'
    have hga : nds.get ⟨m, h1⟩ = a := by
      have := List.get?_eq_get h1
      rw [ha] at this
      exact (Option.some.inj this).symm
    simp only [hco]
    rw [hga]
    exact ⟨hvid, hvpid⟩

theorem lookup_reparent {childId : String} {newPid : Option String}
    {nds out : List GNode} (h : ReparentSkel childId newPid nds out)
    (x : String) :
    (lookupNode nds x = none ∧ lookupNode out x = none) ∨
      ∃ a b, lookupNode nds x = some a ∧ lookupNode out x = some b ∧
        b.id = a.id ∧
        b.parentId = (if a.id = childId then newPid else a.parentId) := by
  induction h with
  | nil => exact Or.inl ⟨rfl, rfl⟩
  | cons hab hrest ih =>
    rename_i a b l1 l2
    by_cases hx : a.id = x
    · refine Or.inr ⟨a, b, ?_, ?_, hab.1, hab.2⟩
      · unfold lookupNode
        rw [List.find?_cons_of_pos _ (by simpa using hx)]
      · unfold lookupNode
        rw [List.find?_cons_of_pos _ (by simp [hab.1, hx])]
    · have h1 : lookupNode (a :: l1) x = lookupNode l1 x := by
        unfold lookupNode
        rw [List.find?_cons_of_neg _ (by simpa using hx)]
      have h2 : lookupNode (b :: l2) x = lookupNode l2 x := by
        unfold lookupNode
        rw [List.find?_cons_of_neg _ (by simp [hab.1, hx])]
      rw [h1, h2]
      exact ih

theorem pstep_reparent {childId : String} {newPid : Option String}
    (hnp : newPid = none ∨ ∃ s₀, newPid = some s₀ ∧ s₀ ≠ "")
    {nds out : List GNode} (h : ReparentSkel childId newPid nds out)
    (x : String) :
    pstep out x = pstep nds x ∨ (x = childId ∧ pstep out x = newPid) := by
  rcases lookup_reparent h x with ⟨h1, h2⟩ | ⟨a, b, ha, hb, hbid, hbpid⟩
  · left
    unfold pstep
    rw [h1, h2]
  · have hax : a.id = x := by
      have := List.find?_some ha
      simpa using this
    by_cases hxc : x = childId
    · right
      refine ⟨hxc, ?_⟩
      rw [if_pos (by rw [hax, hxc])] at hbpid
      unfold pstep
      rw [hb]
      simp only [hbpid]
      rcases hnp with rfl | ⟨s₀, rfl, hs₀⟩
      · rfl
      · simp [hs₀]
    · left
      rw [if_neg (by rw [hax]; exact hxc)] at hbpid
      unfold pstep
      rw [hb, ha]
      simp only [hbpid]

theorem reparent_acyclic {nds : List GNode} (hacy : Acyclic nds)
    {childId parentCmp s₀ : String} (hs₀ : s₀ ≠ "") (hne : s₀ ≠ childId)
    (hguard : childId ∉ ancestorIds nds s₀) :
    Acyclic (runReparentMap childId parentCmp (some s₀) nds) := by
  apply acyclic_of_not_transGen
  have hskel := runReparentMap_skel childId parentCmp (some s₀) nds
  have hps := fun x => pstep_reparent (Or.inr ⟨s₀, rfl, hs₀⟩) hskel x
  apply patch_acyclic (f := pstep nds) (c := childId) (z := s₀)
  · intro x
    rcases hps x with h1 | ⟨hx, h2⟩
    · exact Or.inl h1
    · exact Or.inr ⟨hx, h2⟩
  · exact fun x => acyclic_not_transGen hacy x
  · exact hne
  · intro htg
    exact hguard (transGen_mem_ancestorIds
      (fun j => acyclic_chain_terminates hacy j) htg)

theorem reparent_none_acyclic {nds : List GNode} (hacy : Acyclic nds)
    {childId parentCmp : String} :
    Acyclic (runReparentMap childId parentCmp none nds) := by
  apply acyclic_of_not_transGen
  have hskel := runReparentMap_skel childId parentCmp none nds
  have hps := fun x => pstep_reparent (Or.inl rfl) hskel x
  apply remove_edge_acyclic (f := pstep nds)
  · intro x
    rcases hps x with h1 | ⟨_, h2⟩
    · exact Or.inl h1
    · exact Or.inr h2
  · exact fun x => acyclic_not_transGen hacy x

/-! ## Structural mutations preserve acyclicity -/

theorem connect_step {g : Graph} (hacy : Acyclic g.nodes) (s t : String) :
    ∃ r, connect g s t = some r ∧ Acyclic r.2.nodes := by
  by_cases hst : s = t
  · exact ⟨(MutOutcome.selfLoop, g), by simp [connect, hst], hacy⟩
  · by_cases htr : s ≠ "" ∧ t ≠ ""
    · have hdesc := isDescendantF_eq_mem (b := t)
        (acyclic_chain_terminates hacy s)
      by_cases hmem : t ∈ ancChainF (g.nodes.length + 2) g.nodes s
      · refine ⟨(MutOutcome.wouldCycle, g), ?_, hacy⟩
        simp [connect, hst, htr, hdesc, hmem]
      · refine ⟨(MutOutcome.ok, { g with
            edges := addEdgeRF s t g.edges,
            nodes := runReparentMap t s (some s) g.nodes }), ?_, ?_⟩
        · simp [connect, hst, htr, hdesc, hmem]
        · exact reparent_acyclic hacy htr.1 hst (fun hm => hmem hm)
    · refine ⟨(MutOutcome.ok, { g with edges := addEdgeRF s t g.edges }), ?_, ?_⟩
      · simp [connect, hst, htr]
      · simpa using hacy

theorem setParent_step {g : Graph} (hacy : Acyclic g.nodes) (n p : String) :
    ∃ r, setParent g n p = some r ∧ Acyclic r.2.nodes := by
  by_cases hnp : n = p
  · exact ⟨(MutOutcome.selfLoop, g), by simp [setParent, hnp], hacy⟩
  · by_cases hp : p ≠ ""
    · have hdesc := isDescendantF_eq_mem (b := n)
        (acyclic_chain_terminates hacy p)
      by_cases hmem : n ∈ ancChainF (g.nodes.length + 2) g.nodes p
      · refine ⟨(MutOutcome.wouldCycle, g), ?_, hacy⟩
        simp [setParent, hnp, hp, hdesc, hmem]
      · refine ⟨(MutOutcome.ok,
          { g with nodes := runReparentMap n p (some p) g.nodes }), ?_, ?_⟩
        · simp [setParent, hnp, hp, hdesc, hmem]
        · exact reparent_acyclic hacy hp (fun he => hnp he.symm)
            (fun hm => hmem hm)
    · refine ⟨(MutOutcome.ok,
        { g with nodes := runReparentMap n p none g.nodes }), ?_, ?_⟩
      · simp [setParent, hnp, hp]
      · exact reparent_none_acyclic hacy

theorem applyHOp_step {g : Graph} (hacy : Acyclic g.nodes) (o : HOp) :
    ∃ r, applyHOp g o = some r ∧ Acyclic r.2.nodes := by
  cases o with
  | connectOp s t => exact connect_step hacy s t
  | setParentOp n p => exact setParent_step hacy n p

theorem runOps_acyclic {g : Graph} (hacy : Acyclic g.nodes) (ops : List HOp) :
    ∃ g2, runOps g ops = some g2 ∧ Acyclic g2.nodes := by
  induction ops generalizing g with
  | nil => exact ⟨g, rfl, hacy⟩
  | cons o rest ih =>
    obtain ⟨r, hr, hracy⟩ := applyHOp_step hacy o
    obtain ⟨g2, hg2, hg2acy⟩ := ih hracy
    refine ⟨g2, ?_, hg2acy⟩
    unfold runOps
    rw [hr]
    exact hg2

theorem connect_wouldCycle {g : Graph} (hacy : Acyclic g.nodes) {s t : String}
    (hs : s ≠ "") (ht : t ≠ "") (hst : s ≠ t)
    (hmem : t ∈ ancestorIds g.nodes s) :
    connect g s t = some (MutOutcome.wouldCycle, g) := by
  have hdesc := isDescendantF_eq_mem (b := t)
    (acyclic_chain_terminates hacy s)
  unfold ancestorIds at hmem
  simp [connect, hst, hs, ht, hdesc, hmem]

theorem setParent_wouldCycle {g : Graph} (hacy : Acyclic g.nodes) {n p : String}
    (hp : p ≠ "") (hnp : n ≠ p) (hmem : n ∈ ancestorIds g.nodes p) :
    setParent g n p = some (MutOutcome.wouldCycle, g) := by
  have hdesc := isDescendantF_eq_mem (b := n)
    (acyclic_chain_terminates hacy p)
  unfold ancestorIds at hmem
  simp [setParent, hnp, hp, hdesc, hmem]

/-! ## Claims C1, C2, C6 -/

/-- C1: starting from any state whose parentId relation is acyclic,
after any sequence of connect / setParent (updateNodeParent) calls the
relation is still acyclic (and no guard walk diverges); a call that
would close a cycle — making `s` the parent of `t` while `t` is
already an ancestor of `s` — is rejected as WouldCycle and returns the
state unchanged, leaving every node's parentId and children values
untouched. -/
theorem c1_cycle_rejection_preserves_acyclicity (g : Graph) (ops : List HOp)
    (hacy : Acyclic g.nodes) :
    (∃ g2, runOps g ops = some g2 ∧ Acyclic g2.nodes) ∧
    (∀ s t, s ≠ "" → t ≠ "" → s ≠ t → t ∈ ancestorIds g.nodes s →
      connect g s t = some (MutOutcome.wouldCycle, g)) ∧
    (∀ n p, p ≠ "" → n ≠ p → n ∈ ancestorIds g.nodes p →
      setParent g n p = some (MutOutcome.wouldCycle, g)) := by
  refine ⟨runOps_acyclic hacy ops, ?_, ?_⟩
  · intro s t hs ht hst hmem
    exact connect_wouldCycle hacy hs ht hst hmem
  · intro n p hp hnp hmem
    exact setParent_wouldCycle hacy hp hnp hmem

/-- Witness for C1: in the consistent state with 2 under 1, the
closing call connect("2","1") is rejected as WouldCycle and returns
the state unchanged. -/
theorem c1_witness :
    Acyclic gPair.nodes ∧
    connect gPair "2" "1" = some (MutOutcome.wouldCycle, gPair) :=
  ⟨by decide,
    (c1_cycle_rejection_preserves_acyclicity gPair [] (by decide)).2.1
      "2" "1" (by decide) (by decide) (by decide) (by decide)⟩

/-- C2 (code bug in the source): from the consistent state `gPair`
(node 2 under node 1, with the parent stored before the child in the
array), re-running connect("1","2") — a second drag of the same
connection — succeeds but removes "2" from node 1's children while
leaving node 2's parentId = "1".  The map callback for node 1 returns
the object unchanged because "2" is already in its children, and the
later in-place filter on the old parent then mutates that very
object, so the inverse children/parentId invariant is broken by a
mutation applied to a state where it held. -/
theorem c2_children_mirror_bug :
    MirrorHolds gPair.nodes ∧ Acyclic gPair.nodes ∧
    ∃ g2, connect gPair "1" "2" = some (MutOutcome.ok, g2) ∧
      ¬ MirrorHolds g2.nodes :=
  ⟨by decide, by decide, _, rfl, by decide⟩

/-- C6: for every state and node id A, connect(A,A) and
setParent(A,A) fail with the SelfLoop rejection and return the graph
— its node and edge collections included — unchanged. -/
theorem c6_self_loop_rejected (g : Graph) (A : String) :
    connect g A A = some (MutOutcome.selfLoop, g) ∧
    setParent g A A = some (MutOutcome.selfLoop, g) := by
  constructor
  · simp [connect]
  · simp [setParent]

/-! ## Visibility -/

theorem lookup_self {nds : List GNode} (hnd : (nds.map (fun n => n.id)).Nodup)
    {n : GNode} (hn : n ∈ nds) : lookupNode nds n.id = some n := by
  induction nds with
  | nil => simp at hn
  | cons h t ih =>
    rw [List.map_cons, List.nodup_cons] at hnd
    rcases List.mem_cons.mp hn with rfl | hnt
    · unfold lookupNode
      rw [List.find?_cons_of_pos _ (by simp)]
    · by_cases hid : h.id = n.id
      · exact absurd (hid ▸ List.mem_map_of_mem (fun m => m.id) hnt) hnd.1
      · unfold lookupNode
        rw [List.find?_cons_of_neg _ (by simpa using hid)]
        exact ih hnd.2 hnt

theorem shouldShowF_eq_ancOk {nds : List GNode}
    (hnd : (nds.map (fun n => n.id)).Nodup) :
    ∀ {fuel : Nat} {n : GNode}, n ∈ nds →
      (ancChainF fuel nds n.id).length < fuel →
      shouldShowF fuel nds n = some (ancOkF fuel nds n.id) := by
  intro fuel
  induction fuel with
  | zero => intro n _ h; simp at h
  | succ f ih =>
    intro n hn hlen
    have hl : lookupNode nds n.id = some n := lookup_self hnd hn
    cases hpar : n.parentId with
    | none =>
      have hp : pstep nds n.id = none := by simp [pstep, hl, hpar]
      rw [show shouldShowF (f + 1) nds n = some true by simp [shouldShowF, hpar]]
      unfold ancOkF
      rw [ancChainF_nil hp]
      simp
    | some p =>
      by_cases hpe : p = ""
      · have hp : pstep nds n.id = none := by simp [pstep, hl, hpar, hpe]
        rw [show shouldShowF (f + 1) nds n = some true by
              simp [shouldShowF, hpar, hpe]]
        unfold ancOkF
        rw [ancChainF_nil hp]
        simp
      · have hp : pstep nds n.id = some p := by simp [pstep, hl, hpar, hpe]
        cases hlp : lookupNode nds p with
        | none =>
          have hp2 : pstep nds p = none := by simp [pstep, hlp]
          rw [show shouldShowF (f + 1) nds n = some true by
                simp [shouldShowF, hpar, hpe, hlp]]
          unfold ancOkF
          rw [ancChainF_cons hp f, ancChainF_nil hp2]
          simp [hlp]
        | some parent =>
          have hpid : parent.id = p := by simpa using List.find?_some hlp
          have hpmem : parent ∈ nds := List.mem_of_find?_eq_some hlp
          have hchain : ancChainF (f + 1) nds n.id = p :: ancChainF f nds p :=
            ancChainF_cons hp f
          by_cases hexp : parent.isExpanded = some true
          · have hlen2 : (ancChainF f nds p).length < f := by
              rw [hchain] at hlen; simp at hlen; omega
            have hrec := ih hpmem (by rw [hpid]; exact hlen2)
            rw [show shouldShowF (f + 1) nds n = shouldShowF f nds parent by
                  simp [shouldShowF, hpar, hpe, hlp, hexp]]
            rw [hrec, hpid]
            unfold ancOkF
            rw [hchain]
            simp [hlp, hexp]
          · rw [show shouldShowF (f + 1) nds n = some false by
                  simp [shouldShowF, hpar, hpe, hlp, hexp]]
            unfold ancOkF
            rw [hchain]
            simp [hlp, hexp]

theorem visibleNodes_spec {nds : List GNode}
    (hnd : (nds.map (fun n => n.id)).Nodup) (hacy : Acyclic nds) :
    visibleNodes? nds =
      some (nds.filter (fun n => ancOkF (nds.length + 2) nds n.id)) := by
  have hall : ∀ n ∈ nds, shouldShowF (nds.length + 2) nds n
      = some (ancOkF (nds.length + 2) nds n.id) := fun n hn =>
    shouldShowF_eq_ancOk hnd hn (acyclic_chain_terminates hacy n.id)
  unfold visibleNodes?
  rw [if_pos]
  · congr 1
    apply List.filter_congr
    intro n hn
    rw [hall n hn]
    simp
  · rw [List.all_eq_true]
    intro n hn
    rw [hall n hn]
    rfl

theorem ancOkF_iff (nds : List GNode) (i : String) (fuel : Nat) :
    ancOkF fuel nds i = true ↔
      ∀ a ∈ (ancChainF fuel nds i).filterMap (lookupNode nds),
        a.isExpanded = some true := by
  unfold ancOkF
  rw [List.all_eq_true]
  constructor
  · intro h a ha
    obtain ⟨j, hj, hja⟩ := List.mem_filterMap.mp ha
    have hcj := h j hj
    rw [hja] at hcj
    simpa using hcj
  · intro h j hj
    cases hlj : lookupNode nds j with
    | none => simp [hlj]
    | some a =>
      have ham : a ∈ (ancChainF fuel nds i).filterMap (lookupNode nds) :=
        List.mem_filterMap.mpr ⟨j, hj, hlj⟩
      simp [hlj, h a ham]

/-- C3: on a collection satisfying the data model (unique ids,
acyclic parentId relation — on a cyclic collection the recursive walk
has no value at all), a node is in visibleNodes iff every ancestor
reached by walking its parentId chain upward has isExpanded = true,
and a node with no parentId is always visible regardless of its own
isExpanded. -/
theorem c3_visibility_characterization (nds : List GNode)
    (hnd : (nds.map (fun n => n.id)).Nodup) (hacy : Acyclic nds) :
    ∃ vs, visibleNodes? nds = some vs ∧
      (∀ n ∈ nds, (n ∈ vs ↔ ∀ a ∈ ancNodes nds n, a.isExpanded = some true)) ∧
      (∀ n ∈ nds, n.parentId = none → n ∈ vs) := by
  refine ⟨_, visibleNodes_spec hnd hacy, ?_, ?_⟩
  · intro n hn
    rw [List.mem_filter]
    constructor
    · intro hmem
      exact (ancOkF_iff nds n.id (nds.length + 2)).mp hmem.2
    · intro h
      exact ⟨hn, (ancOkF_iff nds n.id (nds.length + 2)).mpr h⟩
  · intro n hn hpar
    rw [List.mem_filter]
    refine ⟨hn, ?_⟩
    have hp : pstep nds n.id = none := by
      simp [pstep, lookup_self hnd hn, hpar]
    unfold ancOkF
    rw [ancChainF_nil hp]
    rfl

/-- Witness for C3 at the state `gVis`: the collapsed root and the
dangling-parent node are visible, the child of the collapsed root has
an unexpanded ancestor and is not. -/
theorem c3_witness :
    ∃ vs, visibleNodes? gVis.nodes = some vs ∧
      (∀ n ∈ gVis.nodes,
        (n ∈ vs ↔ ∀ a ∈ ancNodes gVis.nodes n, a.isExpanded = some true)) ∧
      (∀ n ∈ gVis.nodes, n.parentId = none → n ∈ vs) :=
  c3_visibility_characterization gVis.nodes (by decide) (by decide)

/-- C10: a node whose parentId is set but matches no node in the
collection is treated as a root by the visibility computation: it is
in visibleNodes no matter what isExpanded flags the collection
carries. -/
theorem c10_dangling_parent_visible (nds : List GNode)
    (hnd : (nds.map (fun n => n.id)).Nodup) (hacy : Acyclic nds)
    {n : GNode} (hn : n ∈ nds) {p : String} (hpid : n.parentId = some p)
    (hdangling : ∀ m ∈ nds, m.id ≠ p) :
    ∃ vs, visibleNodes? nds = some vs ∧ n ∈ vs := by
  refine ⟨_, visibleNodes_spec hnd hacy, ?_⟩
  rw [List.mem_filter]
  refine ⟨hn, ?_⟩
  have hlp : lookupNode nds p = none := by
    unfold lookupNode
    rw [List.find?_eq_none]
    intro m hm
    simpa using hdangling m hm
  by_cases hpe : p = ""
  · have hp : pstep nds n.id = none := by
      simp [pstep, lookup_self hnd hn, hpid, hpe]
    unfold ancOkF
    rw [ancChainF_nil hp]
    rfl
  · have hp : pstep nds n.id = some p := by
      simp [pstep, lookup_self hnd hn, hpid, hpe]
    have hp2 : pstep nds p = none := by simp [pstep, hlp]
    unfold ancOkF
    rw [show nds.length + 2 = nds.length + 1 + 1 from rfl,
        ancChainF_cons hp (nds.length + 1), ancChainF_nil hp2]
    simp [hlp]

/-- Witness for C10 at the state `gVis`: node `d` points at the
non-existent id `zz` and is visible. -/
theorem c10_witness :
    ∃ vs, visibleNodes? gVis.nodes = some vs ∧
      mkNode "d" "D" (some "zz") [] true ∈ vs :=
  c10_dangling_parent_visible gVis.nodes (by decide) (by decide)
    (by decide) rfl (by decide)

/-- C9: an edge is in visibleEdges iff both its source and target ids
belong to visible nodes; in particular an edge whose source or target
matches no existing node is excluded at display time. -/
theorem c9_visible_edges (g : Graph)
    (hnd : (g.nodes.map (fun n => n.id)).Nodup) (hacy : Acyclic g.nodes) :
    ∃ vs ves, visibleNodes? g.nodes = some vs ∧
      visibleEdges? g.nodes g.edges = some ves ∧
      (∀ e ∈ g.edges,
        (e ∈ ves ↔ (∃ a ∈ vs, a.id = e.source) ∧ (∃ b ∈ vs, b.id = e.target))) ∧
      (∀ e ∈ g.edges,
        (∀ m ∈ g.nodes, m.id ≠ e.source) ∨ (∀ m ∈ g.nodes, m.id ≠ e.target) →
        e ∉ ves) := by
  have hvs := visibleNodes_spec hnd hacy
  have hves : visibleEdges? g.nodes g.edges =
      some (g.edges.filter (fun e =>
        (g.nodes.filter (fun n => ancOkF (g.nodes.length + 2) g.nodes n.id)).any
            (fun n => n.id == e.source) &&
        (g.nodes.filter (fun n => ancOkF (g.nodes.length + 2) g.nodes n.id)).any
            (fun n => n.id == e.target))) := by
    unfold visibleEdges?
    rw [hvs]
    rfl
  refine ⟨_, _, hvs, hves, ?_, ?_⟩
  · intro e _
    rw [List.mem_filter]
    constructor
    · intro ⟨hee, hb⟩
      rw [Bool.and_eq_true, List.any_eq_true, List.any_eq_true] at hb
      obtain ⟨⟨a, ha, hae⟩, b, hbm, hbe⟩ := hb
      exact ⟨⟨a, ha, by simpa using hae⟩, ⟨b, hbm, by simpa using hbe⟩⟩
    · intro ⟨⟨a, ha, hae⟩, b, hbm, hbe⟩
      rename_i hee
      refine ⟨hee, ?_⟩
      rw [Bool.and_eq_true, List.any_eq_true, List.any_eq_true]
      exact ⟨⟨a, ha, by simpa using hae⟩, ⟨b, hbm, by simpa using hbe⟩⟩
  · intro e _ hdang hmem
    rw [List.mem_filter, Bool.and_eq_true, List.any_eq_true, List.any_eq_true]
      at hmem
    obtain ⟨_, ⟨a, ha, hae⟩, b, hbm, hbe⟩ := hmem
    have havs : a ∈ g.nodes := List.mem_of_mem_filter ha
    have hbvs : b ∈ g.nodes := List.mem_of_mem_filter hbm
    rcases hdang with hd | hd
    · exact hd a havs (by simpa using hae)
    · exact hd b hbvs (by simpa using hbe)

/-- Witness for C9 at the state `gVis`: only the edge between the two
visible nodes survives; the edge under the collapsed root and the
edge with the dangling source id are excluded. -/
theorem c9_witness :
    ∃ vs ves, visibleNodes? gVis.nodes = some vs ∧
      visibleEdges? gVis.nodes gVis.edges = some ves ∧
      (∀ e ∈ gVis.edges,
        (e ∈ ves ↔ (∃ a ∈ vs, a.id = e.source) ∧ (∃ b ∈ vs, b.id = e.target))) ∧
      (∀ e ∈ gVis.edges,
        (∀ m ∈ gVis.nodes, m.id ≠ e.source) ∨ (∀ m ∈ gVis.nodes, m.id ≠ e.target) →
        e ∉ ves) :=
  c9_visible_edges gVis (by decide) (by decide)

/-! ## Termination and divergence of the ancestor walks -/

theorem cyc_walks_diverge : ∀ fuel,
    shouldShowF fuel cycNodes cycA = none ∧
    shouldShowF fuel cycNodes cycB = none ∧
    isDescendantF fuel cycNodes "a" "c" = none ∧
    isDescendantF fuel cycNodes "b" "c" = none := by
  intro fuel
  induction fuel with
  | zero => exact ⟨rfl, rfl, rfl, rfl⟩
  | succ f ih =>
    refine ⟨?_, ?_, ?_, ?_⟩
    · have hred : shouldShowF (f + 1) cycNodes cycA
          = shouldShowF f cycNodes cycB := rfl
      rw [hred]
      exact ih.2.1
    · have hred : shouldShowF (f + 1) cycNodes cycB
          = shouldShowF f cycNodes cycA := rfl
      rw [hred]
      exact ih.1
    · have hred : isDescendantF (f + 1) cycNodes "a" "c"
          = isDescendantF f cycNodes "b" "c" := rfl
      rw [hred]
      exact ih.2.2.2
    · have hred : isDescendantF (f + 1) cycNodes "b" "c"
          = isDescendantF f cycNodes "a" "c" := rfl
      rw [hred]
      exact ih.2.2.1

/-- C7 counterexample: the crafted document `cycDoc` imports without
complaint into the two-node parentId cycle `cycNodes`, and on it both
ancestor walks exceed every recursion depth — the source recursion
has no visited set or depth cap, so it does not terminate; in
particular the visibility computation has no value. -/
theorem c7_counterexample :
    importFromJSON (some cycDoc) = Except.ok (cycNodes, []) ∧
    ShouldShowDiverges cycNodes cycA ∧
    IsDescendantDiverges cycNodes "a" "c" ∧
    visibleNodes? cycNodes = none :=
  ⟨rfl, fun fuel => (cyc_walks_diverge fuel).1,
   fun fuel => (cyc_walks_diverge fuel).2.2.1, rfl⟩

/-- C7 amended: on collections satisfying the data-model invariants
(unique ids, acyclic parentId relation) every shouldShowNode and
isDescendant walk terminates — within recursion depth nodes.length + 2
— and the visibility computation has a value; but on data whose
parentId links form a cycle (obtainable by importing a crafted
document, see the counterexample) the walks recurse unboundedly. -/
theorem c7_walks_terminate_on_acyclic (nds : List GNode)
    (hnd : (nds.map (fun n => n.id)).Nodup) (hacy : Acyclic nds) :
    (∀ n ∈ nds, (shouldShowF (nds.length + 2) nds n).isSome) ∧
    (∀ a b, (isDescendantF (nds.length + 2) nds a b).isSome) ∧
    (visibleNodes? nds).isSome := by
  refine ⟨?_, ?_, ?_⟩
  · intro n hn
    rw [shouldShowF_eq_ancOk hnd hn (acyclic_chain_terminates hacy n.id)]
    rfl
  · intro a b
    rw [isDescendantF_eq_mem (acyclic_chain_terminates hacy a)]
    rfl
  · rw [visibleNodes_spec hnd hacy]
    rfl

/-- Witness for the amended C7 at the state `gVis`. -/
theorem c7_witness :
    (∀ n ∈ gVis.nodes, (shouldShowF (gVis.nodes.length + 2) gVis.nodes n).isSome) ∧
    (∀ a b, (isDescendantF (gVis.nodes.length + 2) gVis.nodes a b).isSome) ∧
    (visibleNodes? gVis.nodes).isSome :=
  c7_walks_terminate_on_acyclic gVis.nodes (by decide) (by decide)

/-! ## Serializer claims -/

theorem roundTrip_node (n : GNode) (hexp : n.isExpanded.isSome)
    (hw : n.width.getD 0 ≠ 0) (hh : n.height.getD 0 ≠ 0) :
    nodeObs (importNode (exportNode n)) = nodeObs n := by
  obtain ⟨e, he⟩ := Option.isSome_iff_exists.mp hexp
  obtain ⟨w, hwv⟩ : ∃ w, n.width = some w := by
    cases hww : n.width with
    | none => rw [hww] at hw; simp at hw
    | some w => exact ⟨w, rfl⟩
  obtain ⟨v, hhv⟩ : ∃ v, n.height = some v := by
    cases hhh : n.height with
    | none => rw [hhh] at hh; simp at hh
    | some v => exact ⟨v, rfl⟩
  have hw0 : ¬ w = 0 := by rw [hwv] at hw; simpa using hw
  have hh0 : ¬ v = 0 := by rw [hhv] at hh; simpa using hh
  cases hc : n.color with
  | none =>
    cases hpi : n.parentId with
    | none =>
      simp [nodeObs, importNode, exportNode, jField, jStr?, jNumD, jsOrI,
            he, hc, hpi, hwv, hhv, hw0, hh0]
    | some p =>
      simp [nodeObs, importNode, exportNode, jField, jStr?, jNumD, jsOrI,
            he, hc, hpi, hwv, hhv, hw0, hh0]
  | some c =>
    cases hpi : n.parentId with
    | none =>
      simp [nodeObs, importNode, exportNode, jField, jStr?, jNumD, jsOrI,
            he, hc, hpi, hwv, hhv, hw0, hh0]
    | some p =>
      simp [nodeObs, importNode, exportNode, jField, jStr?, jNumD, jsOrI,
            he, hc, hpi, hwv, hhv, hw0, hh0]

theorem roundTrip_edge (e : GEdge) :
    edgeObs (importEdge (exportEdge e)) = edgeObs e := by
  cases e.animated with
  | none => simp [edgeObs, importEdge, exportEdge, jField, jStr?]
  | some b => simp [edgeObs, importEdge, exportEdge, jField, jStr?]

/-- C4 counterexample: the state `gZeroSize` — one node with width
and height 0 (enterable through the size editor) and an undefined
isExpanded — does not round-trip: export coerces the sizes with
`|| 150` / `|| 80` and the expand flag with `?? true`, so the
re-imported node observably differs. -/
theorem c4_counterexample :
    ∃ ns, roundTrip gZeroSize = Except.ok (ns, []) ∧
      ns.map nodeObs ≠ gZeroSize.nodes.map nodeObs :=
  ⟨_, rfl, by decide⟩

theorem roundTrip_nodes_list (l : List GNode)
    (hyp : ∀ n ∈ l,
      n.isExpanded.isSome ∧ n.width.getD 0 ≠ 0 ∧ n.height.getD 0 ≠ 0) :
    ((l.map exportNode).map importNode).map nodeObs = l.map nodeObs := by
  induction l with
  | nil => rfl
  | cons n rest ih =>
    have hn := hyp n (List.mem_cons_self n rest)
    simp only [List.map_cons]
    rw [roundTrip_node n hn.1 hn.2.1 hn.2.2,
        ih (fun m hm => hyp m (List.mem_cons_of_mem n hm))]

theorem roundTrip_edges_list (l : List GEdge) :
    ((l.map exportEdge).map importEdge).map edgeObs = l.map edgeObs := by
  induction l with
  | nil => rfl
  | cons e rest ih =>
    simp only [List.map_cons]
    rw [roundTrip_edge e, ih]

/-- C4 amended: for every graph state whose nodes all carry a defined
isExpanded flag and nonzero width and height — which includes every
state the application itself builds — importing the exported document
yields the same node ids, labels, positions, colors, parentIds,
isExpanded flags and sizes, and an edge set with the same
source/target pairs.  Nodes with width or height 0 or an undefined
isExpanded re-import with the defaults instead (see the
counterexample). -/
theorem c4_export_import_roundtrip (g : Graph)
    (hyp : ∀ n ∈ g.nodes,
      n.isExpanded.isSome ∧ n.width.getD 0 ≠ 0 ∧ n.height.getD 0 ≠ 0) :
    ∃ ns es, roundTrip g = Except.ok (ns, es) ∧
      ns.map nodeObs = g.nodes.map nodeObs ∧
      es.map edgeObs = g.edges.map edgeObs := by
  exact ⟨(g.nodes.map exportNode).map importNode,
         (g.edges.map exportEdge).map importEdge, rfl,
         roundTrip_nodes_list g.nodes hyp, roundTrip_edges_list g.edges⟩

/-- Witness for the amended C4 at the consistent two-level state
`gPair`. -/
theorem c4_witness :
    ∃ ns es, roundTrip gPair = Except.ok (ns, es) ∧
      ns.map nodeObs = gPair.nodes.map nodeObs ∧
      es.map edgeObs = gPair.edges.map edgeObs :=
  c4_export_import_roundtrip gPair (by decide)

/-- C5: a malformed interchange document — input that is not valid
structured data (the parse throws), or a document without the
required nodes/edges keys (the `.map` on `undefined` throws) — makes
the import fail with the single reported error, caught before
setNodes/setEdges run, so the live node and edge collections are left
completely unchanged and no partially imported graph exists. -/
theorem c5_malformed_import_rejected (g : Graph) (input : Option JVal)
    (hm : MalformedInput input) :
    applyImport g input = (g, true) := by
  rcases hm with rfl | ⟨j, rfl, hj⟩
  · rfl
  · have himp : importFromJSON (some j) = Except.error () := by
      simp only [importFromJSON]
      rcases hj with hn | he
      · rw [hn]
        cases asArr (jField j "edges") <;> rfl
      · rw [he]
        cases asArr (jField j "nodes") <;> rfl
    unfold applyImport
    rw [himp]

/-- Witness for C5: the document `{}` has no nodes/edges keys and is
rejected without touching the state. -/
theorem c5_witness :
    MalformedInput (some (JVal.jobj [])) ∧
    applyImport gPair (some (JVal.jobj [])) = (gPair, true) :=
  ⟨Or.inr ⟨JVal.jobj [], rfl, Or.inl rfl⟩,
   c5_malformed_import_rejected gPair (some (JVal.jobj []))
     (Or.inr ⟨JVal.jobj [], rfl, Or.inl rfl⟩)⟩

/-- C8 counterexample: the document `ncDoc` expresses its hierarchy
(`b` under `a`) only through parentId and carries no children arrays;
it imports without any reconstruction, so immediately after import
`b.parentId = "a"` while `a.children = []` — the children/parentId
inverse does not hold, although the claim says import re-derives
children from parentId. -/
theorem c8_counterexample :
    ∃ ns, importFromJSON (some ncDoc) = Except.ok (ns, []) ∧ ¬ MirrorHolds ns :=
  ⟨_, rfl, by decide⟩

/-- C8 amended: on import a node's children is copied verbatim from
the document — `[]` is substituted exactly when the field is missing
(or not an array) — and parentId is likewise copied verbatim; the
children index is never reconstructed from or validated against
parentId, so an inconsistent document imports with the mismatch
intact. -/
theorem c8_children_copied_not_reconstructed (j : JVal) :
    (jField j "children" = none → (importNode j).children = some []) ∧
    (∀ xs, jField j "children" = some (JVal.jarr xs) →
      (importNode j).children = some (xs.filterMap (fun x => jStr? (some x)))) ∧
    (importNode j).parentId = jStr? (jField j "parentId") := by
  refine ⟨?_, ?_, rfl⟩
  · intro h
    simp [importNode, h]
  · intro xs h
    simp [importNode, h]

/-- Witness for the amended C8: a document node without a children
field is imported with children = []; one with a literal children
array keeps it verbatim. -/
theorem c8_witness :
    (importNode (JVal.jobj [])).children = some [] ∧
    (importNode (JVal.jobj [("children",
        JVal.jarr [JVal.jstr "q"])])).children = some ["q"] :=
  ⟨(c8_children_copied_not_reconstructed (JVal.jobj [])).1 rfl,
   by
     have hc := (c8_children_copied_not_reconstructed
       (JVal.jobj [("children", JVal.jarr [JVal.jstr "q"])])).2.1
       [JVal.jstr "q"] rfl
     simpa using hc⟩

end NeuralConstellations
